import Mathlib

/-!
Verification of the hybrid-retrieval core of the `aihero` repository:
the sliding-window chunker and document chunking of `ingest.py`, and the
query cleaning and hybrid search fusion of `search_agent.py`, shallowly
embedded in Lean.
-/

/-- A raw chunk as produced by `sliding_window`: the Python dict
`{"start": i, "content": batch}`. -/
structure RawChunk where
  start : Nat
  content : String
deriving DecidableEq, Repr

/-- Python slicing `s[a:b]` for a natural `a` and an integer `b`
(a negative `b` counts from the end, bounds are clamped). -/
def pySlice (s : List Char) (a : Nat) (b : Int) : List Char :=
  (s.drop a).take
    ((if b < 0 then ((s.length : Int) + b).toNat else min b.toNat s.length) - a)

/-- Number of elements of Python `range(0, n, step)` for a positive `step`. -/
def pyRangeLen (n step : Nat) : Nat := (n + step - 1) / step

/-- Python `range(0, n, step)` for a positive `step`. -/
def pyRange (n step : Nat) : List Nat := List.range' 0 (pyRangeLen n step) step

/-- The loop body of `sliding_window`: for each start offset `i` in the
remaining list, append `{"start": i, "content": seq[i:i+size]}` and break
out of the loop as soon as `i + size >= n`. -/
def swGo (s : List Char) (size : Int) : List Nat → List RawChunk
  | [] => []
  | i :: rest =>
    { start := i, content := String.mk (pySlice s i ((i : Int) + size)) } ::
      (if (i : Int) + size ≥ (s.length : Int) then [] else swGo s size rest)

/-- Model of `ingest.sliding_window(seq, size, step)`.  The `for i in range(0, n, step)`
header raises `ValueError` when `step == 0` and iterates zero times when
`step < 0`; otherwise the body runs `swGo` over the starts `0, step, ...`. -/
def sliding_window (seq : String) (size : Int := 2000) (step : Int := 1000) :
    Except String (List RawChunk) :=
  if step = 0 then .error "range() arg 3 must not be zero"
  else if step < 0 then .ok []
  else .ok (swGo seq.data size (pyRange seq.data.length step.toNat))

deriving instance DecidableEq for Except

/-- A document dict as produced by the source adapters: keys `filename`,
optionally `url`, and optionally `content` (`none` models an absent key,
as after `doc.pop("content", "")`). -/
structure PyDoc where
  filename : String
  url : Option String
  content : Option String
deriving DecidableEq, Repr

/-- A chunk after `ck.update(doc.copy())`: the window's `start` and
`content` plus the metadata remaining in the (popped) document. -/
structure ChunkRec where
  start : Nat
  content : String
  filename : String
  url : Option String
deriving DecidableEq, Repr

/-- Model of `ingest.chunk_documents(docs, size, step)`.  For each document the code
runs `text = doc.pop("content", "")` — mutating the document in place —
skips the document when `text` is falsy, and otherwise extends the chunk
list with the windows of `text`, each updated with the popped document's
remaining fields.  The returned pair is (chunks, documents after the loop),
making the mutation of the input documents explicit. -/
def chunk_documents : List PyDoc → Int → Int → Except String (List ChunkRec × List PyDoc)
  | [], _, _ => .ok ([], [])
  | d :: ds, size, step =>
    let text := d.content.getD ""
    let d' : PyDoc := { d with content := none }
    if text = "" then
      match chunk_documents ds size step with
      | .error e => .error e
      | .ok (cs, ds') => .ok (cs, d' :: ds')
    else
      match sliding_window text size step with
      | .error e => .error e
      | .ok raw =>
        match chunk_documents ds size step with
        | .error e => .error e
        | .ok (cs, ds') =>
          .ok (raw.map (fun rc =>
            { start := rc.start, content := rc.content,
              filename := d.filename, url := d.url }) ++ cs, d' :: ds')

/-- Python regex word character (`\w`): letters, digits, underscore. -/
def isWordChar (c : Char) : Bool := c.isAlphanum || c == '_'

/-- The filler alternatives of the regex
`\b(give me|tell me|can you tell me|what is|how to|please)\b`. -/
def fillerPhrases : List (List Char) :=
  ["give me".data, "tell me".data, "can you tell me".data,
   "what is".data, "how to".data, "please".data]

/-- The trailing `\b`: every phrase ends in a word character, so the
boundary holds exactly when the next character is absent or non-word. -/
def boundaryAfterOk (l : List Char) : Bool :=
  match l with
  | [] => true
  | c :: _ => !(isWordChar c)

/-- Case-insensitive match of one phrase at the head of `l`, including the
trailing word boundary. -/
def phraseMatchAt (p l : List Char) : Bool :=
  ((l.take p.length).map Char.toLower == p) && boundaryAfterOk (l.drop p.length)

/-- First filler alternative matching at the head of `l` (they start with
distinct letters, so at most one can), returning its length. -/
def matchFiller (l : List Char) : Option Nat :=
  (fillerPhrases.find? fun p => phraseMatchAt p l).map List.length

/-- The scan of `re.sub`: positions are tried left to right; `prev` records
whether the previous character of the original string was a word character
(so the leading `\b`, every phrase starting with a word character, holds
exactly when `prev` is false).  On a match the phrase is deleted and the
scan resumes after it with `prev := true` (phrases end in a word character). -/
def subFillerGo (prev : Bool) (l : List Char) : List Char :=
  match l with
  | [] => []
  | c :: rest =>
    if prev then c :: subFillerGo (isWordChar c) rest
    else
      match h : matchFiller (c :: rest) with
      | some len => subFillerGo true ((c :: rest).drop len)
      | none => c :: subFillerGo (isWordChar c) rest
termination_by l.length
decreasing_by
  all_goals simp only [List.length_drop, List.length_cons]
  · omega
  · have hp : 0 < len := by
      unfold matchFiller at h
      rw [Option.map_eq_some'] at h
      obtain ⟨p, hp', rfl⟩ := h
      have hmem := List.mem_of_find?_eq_some hp'
      fin_cases hmem <;> decide
    omega
  · omega

/-- Python `str.isspace` on the characters relevant here. -/
def pyIsSpace (c : Char) : Bool :=
  c == ' ' || c == '\t' || c == '\n' || c == '\r' || c == '\x0b' || c == '\x0c'

/-- Python `str.split()` with no separator: split on whitespace runs,
discarding empty tokens.  `cur` is the reversed current token. -/
def splitWsGo (cur : List Char) : List Char → List (List Char)
  | [] => if cur.isEmpty then [] else [cur.reverse]
  | c :: rest =>
    if pyIsSpace c then
      if cur.isEmpty then splitWsGo [] rest else cur.reverse :: splitWsGo [] rest
    else splitWsGo (c :: cur) rest

/-- Python `s.split()`. -/
def pySplitWs (s : List Char) : List (List Char) := splitWsGo [] s

/-- Python join of the tokens with single spaces. -/
def joinWithSpace : List (List Char) → List Char
  | [] => []
  | [t] => t
  | t :: ts => t ++ ' ' :: joinWithSpace ts

/-- Python `s.strip()`. -/
def pyStripChars (s : List Char) : List Char :=
  ((s.dropWhile pyIsSpace).reverse.dropWhile pyIsSpace).reverse

/-- The whitespace collapsing step: Python join of the split tokens with
single spaces, followed by strip. -/
def normalizeWs (s : List Char) : List Char :=
  pyStripChars (joinWithSpace (pySplitWs s))

/-- Model of `search_agent.clean_prompt_for_search`: strip the filler phrases,
collapse whitespace, and fall back to the original prompt when the result
is empty (Python truthiness of the cleaned string). -/
def clean_prompt_for_search (prompt : String) : String :=
  if normalizeWs (subFillerGo false prompt.data) = [] then prompt
  else String.mk (normalizeWs (subFillerGo false prompt.data))

/-- True exactly when no position of `l` carries a
whole-word, case-insensitive occurrence of a filler phrase (`prev` as in
`subFillerGo`). -/
def noFillerScan (prev : Bool) : List Char → Bool
  | [] => true
  | c :: rest =>
    (prev || (matchFiller (c :: rest)).isNone) && noFillerScan (isWordChar c) rest

/-- The fusion cap `MAX_CHUNKS = 10` of `hybrid_search`. -/
def MAX_CHUNKS : Nat := 10

/-- A result record returned by either index search: `filename`, `content`,
and an optional `url` key. -/
structure SearchHit where
  filename : String
  content : String
  url : Option String
deriving DecidableEq, Repr

/-- An entry of `combined_results`.  Entries appended from the text pool
are dicts with keys `filename`/`content`; entries appended from the vector
pool are dicts with keys `display_name`/`link_url`/`content`.  The
no-results sentinel has the `filename`/`content` shape. -/
inductive FusedResult where
  | text (filename content : String)
  | vector (display_name link_url content : String)
deriving DecidableEq, Repr

/-- The deduplication key under which an entry was recorded in
`seen_contents`: for both shapes it is the source (filename, content). -/
def fusedKey : FusedResult → String × String
  | .text f c => (f, c)
  | .vector d _ c => (d, c)

/-- State of the fusion loops: (`seen_contents`, `combined_results`). -/
abbrev FuseState := List (String × String) × List FusedResult

/-- One iteration of the text-results loop of `hybrid_search`. -/
def textStep (st : FuseState) (r : SearchHit) : FuseState :=
  if (r.filename, r.content) ∉ st.1 ∧ st.2.length < MAX_CHUNKS then
    ((r.filename, r.content) :: st.1,
      st.2 ++ [FusedResult.text r.filename r.content])
  else st

/-- One iteration of the vector-results loop of `hybrid_search`: the
appended dict exposes `display_name` (the filename), `link_url` (the `url`
key when present, else the filename), and the content. -/
def vectorStep (st : FuseState) (r : SearchHit) : FuseState :=
  if (r.filename, r.content) ∉ st.1 ∧ st.2.length < MAX_CHUNKS then
    ((r.filename, r.content) :: st.1,
      st.2 ++ [FusedResult.vector r.filename (r.url.getD r.filename) r.content])
  else st

/-- The list `combined_results` after both fusion loops. -/
def combinedResults (text_results vector_results : List SearchHit) :
    List FusedResult :=
  (vector_results.foldl vectorStep (text_results.foldl textStep ([], []))).2

/-- The sentinel record returned when no results were combined. -/
def noResults : FusedResult :=
  .text "No Results"
    "The search did not find specific content related to your query in the available documents."

/-- Lines 50-85 of `search_agent.py`: fuse the two pools and fall back to
the sentinel when `combined_results` is empty. -/
def hybrid_fuse (text_results vector_results : List SearchHit) :
    List FusedResult :=
  if (combinedResults text_results vector_results).isEmpty then [noResults]
  else combinedResults text_results vector_results

/-- Model of `HybridSearchTool.hybrid_search`, with the two index adapters and the
embedding model passed as functions: clean the query, request 10 text
results and 8 vector results, then fuse. -/
def hybrid_search {V : Type} (textSearch : String → Nat → List SearchHit)
    (encode : String → V) (vectorSearch : V → Nat → List SearchHit)
    (query : String) : List FusedResult :=
  hybrid_fuse (textSearch (clean_prompt_for_search query) 10)
    (vectorSearch (encode (clean_prompt_for_search query)) 8)

/-- The record appended by the text loop. -/
def mkText (r : SearchHit) : FusedResult := .text r.filename r.content

/-- The record appended by the vector loop. -/
def mkVector (r : SearchHit) : FusedResult :=
  .vector r.filename (r.url.getD r.filename) r.content

/-- The seen-set / combined-list invariant of the fusion loops:
`seen_contents` holds exactly the keys of `combined_results`, whose keys
are pairwise distinct. -/
def SeenInv (st : FuseState) : Prop :=
  (∀ k, k ∈ st.1 ↔ ∃ e ∈ st.2, fusedKey e = k) ∧ (st.2.map fusedKey).Nodup

/-- C5: the spec's worked example claims
`sliding_window("abcdefghij", size=4, step=3)` yields four windows at starts
[0,3,6,9] ending with content "j".  The code stops as soon as `i + size >= n`,
i.e. already after the window at start 6 (end 10 reaches length 10), so the
claimed four-chunk output is not what the function returns. -/
theorem sliding_window_example_cex :
    sliding_window "abcdefghij" 4 3 ≠
      .ok [⟨0, "abcd"⟩, ⟨3, "defg"⟩, ⟨6, "ghij"⟩, ⟨9, "j"⟩] := by
  decide

/-- C5 (amended): `sliding_window("abcdefghij", size=4, step=3)` returns
exactly three chunks, at starts [0,3,6] with contents "abcd", "defg", "ghij";
the stop condition `i + size >= n` already fires at start 6, where the window
end 10 reaches the length 10, so no window at start 9 is emitted. -/
theorem sliding_window_example_amended :
    sliding_window "abcdefghij" 4 3 =
      .ok [⟨0, "abcd"⟩, ⟨3, "defg"⟩, ⟨6, "ghij"⟩] := by
  decide

/-- C7: the live `sliding_window` performs no validation of `size`/`step`.
With `size = 0` and `step = 1` on input "abc" it silently returns three
chunks with empty content instead of raising an invalid-configuration
error before producing any chunk. -/
theorem sliding_window_no_validation :
    sliding_window "abc" 0 1 = .ok [⟨0, ""⟩, ⟨1, ""⟩, ⟨2, ""⟩] := by
  decide

/-- C9: `chunk_documents` does not leave the input documents unchanged:
`doc.pop("content", "")` removes the text body from the input document.
On a single document `{filename: "a.md", content: "xy"}` the document that
remains after chunking has lost its `content` key. -/
theorem chunk_documents_mutates_docs_cex :
    chunk_documents [⟨"a.md", none, some "xy"⟩] 2000 1000 =
      .ok ([⟨0, "xy", "a.md", none⟩], [⟨"a.md", none, none⟩]) ∧
    (⟨"a.md", none, none⟩ : PyDoc) ≠ ⟨"a.md", none, some "xy"⟩ := by
  constructor
  · decide
  · decide

/-- C9 (amended): `chunk_documents` removes the `content` entry from every
input document (the documents are mutated by `doc.pop`), and leaves every
other field of every document unchanged. -/
theorem chunk_documents_pop_content_amended (docs : List PyDoc) (size step : Int)
    (out : List ChunkRec × List PyDoc)
    (h : chunk_documents docs size step = .ok out) :
    out.2 = docs.map fun d => { d with content := none } := by
  induction docs generalizing out with
  | nil =>
    simp only [chunk_documents] at h
    cases h
    simp
  | cons d ds ih =>
    simp only [chunk_documents] at h
    split at h
    · cases hrec : chunk_documents ds size step with
      | error e => rw [hrec] at h; cases h
      | ok p => rw [hrec] at h; cases h; simp [ih p hrec]
    · cases hsw : sliding_window (d.content.getD "") size step with
      | error e => rw [hsw] at h; cases h
      | ok raw =>
        rw [hsw] at h
        cases hrec : chunk_documents ds size step with
        | error e => rw [hrec] at h; cases h
        | ok p => rw [hrec] at h; cases h; simp [ih p hrec]

/-- C9 (amended, witness): the amended statement evaluated on a concrete
document list. -/
theorem chunk_documents_pop_content_amended_witness :
    ([⟨"a.md", none, none⟩] : List PyDoc) =
      [(⟨"a.md", none, some "xy"⟩ : PyDoc)].map (fun d => { d with content := none }) :=
  chunk_documents_pop_content_amended [⟨"a.md", none, some "xy"⟩] 2000 1000
    ([⟨0, "xy", "a.md", none⟩], [⟨"a.md", none, none⟩]) (by decide)

/-- For a nonnegative window length, Python's `seq[i:i+size]` is take-after-drop. -/
lemma pySlice_add (s : List Char) (i : Nat) (size : Int) (hs : 0 ≤ size) :
    pySlice s i ((i : Int) + size) = (s.drop i).take size.toNat := by
  unfold pySlice
  rw [if_neg (by omega : ¬((i : Int) + size < 0))]
  have h1 : ((i : Int) + size).toNat = i + size.toNat := by omega
  rw [h1]
  rcases le_or_lt (i + size.toNat) s.length with h | h
  · rw [min_eq_left h, Nat.add_sub_cancel_left]
  · rw [min_eq_right h.le]
    rw [List.take_of_length_le (by rw [List.length_drop] :
          (s.drop i).length ≤ s.length - i),
        List.take_of_length_le (by rw [List.length_drop]; omega :
          (s.drop i).length ≤ size.toNat)]

/-- Length of the window emitted at start offset `i`. -/
lemma swChunk_content_length (s : List Char) (i : Nat) (size : Int) (hs : 0 ≤ size) :
    (String.mk (pySlice s i ((i : Int) + size))).length
      = min size.toNat (s.length - i) := by
  rw [pySlice_add s i size hs, String.length_mk, List.length_take, List.length_drop]

/-- When the document is nonempty, `pyRangeLen` is `(n-1)/step + 1`. -/
lemma pyRangeLen_pos_rep (n step : Nat) (hn : 1 ≤ n) (hs : 1 ≤ step) :
    pyRangeLen n step = (n - 1) / step + 1 := by
  unfold pyRangeLen
  rw [(by omega : n + step - 1 = (n - 1) + step), Nat.add_div_right _ hs]

/-- Python `range(0, n, step)` has enough elements: `step * len ≥ n`. -/
lemma le_step_mul_pyRangeLen (n step : Nat) (hn : 1 ≤ n) (hs : 1 ≤ step) :
    n ≤ step * pyRangeLen n step := by
  rw [pyRangeLen_pos_rep n step hn hs, Nat.mul_succ]
  have h1 := Nat.div_add_mod (n - 1) step
  have h2 : (n - 1) % step < step := Nat.mod_lt _ hs
  generalize step * ((n - 1) / step) = q at h1 ⊢
  omega

/-- Every element of `range(0, n, step)` is below `n`. -/
lemma pyRange_lt (n step : Nat) (hs : 1 ≤ step) : ∀ x ∈ pyRange n step, x < n := by
  intro x hx
  unfold pyRange at hx
  rw [List.mem_range'] at hx
  obtain ⟨j, hj, rfl⟩ := hx
  rcases Nat.eq_zero_or_pos n with hn | hn
  · subst hn
    have h0 : pyRangeLen 0 step = 0 := by
      unfold pyRangeLen; exact Nat.div_eq_of_lt (by omega)
    omega
  · rw [pyRangeLen_pos_rep n step hn hs] at hj
    have hj' : j ≤ (n - 1) / step := by omega
    have h1 : step * j ≤ step * ((n - 1) / step) := Nat.mul_le_mul_left _ hj'
    have h2 : step * ((n - 1) / step) ≤ n - 1 := by
      rw [Nat.mul_comm]; exact Nat.div_mul_le_self _ _
    have h3 : step * j ≤ n - 1 := h1.trans h2
    generalize step * j = a at h3 ⊢
    omega

/-- Main invariant of the `sliding_window` loop: starting at offset `i < n`
with enough iterations left to reach `n`, the emitted chunks start at
`i, i+step, ...`, stay inside the document, cover `[i, n)`, and the last
chunk ends exactly at `n`. -/
lemma swGo_master (s : List Char) (sz : Int) (stepN : Nat)
    (hsz : 1 ≤ sz) (hstep : 1 ≤ stepN) (hss : (stepN : Int) ≤ sz) :
    ∀ m i, i < s.length → s.length ≤ i + stepN * m →
      (swGo s sz (List.range' i m stepN) ≠ [] ∧
       (swGo s sz (List.range' i m stepN)).map RawChunk.start
         = List.range' i (swGo s sz (List.range' i m stepN)).length stepN) ∧
      (∀ c ∈ swGo s sz (List.range' i m stepN),
         i ≤ c.start ∧ c.start + c.content.length ≤ s.length) ∧
      (∀ k, i ≤ k → k < s.length →
         ∃ c ∈ swGo s sz (List.range' i m stepN),
           c.start ≤ k ∧ k < c.start + c.content.length) ∧
      (∃ c, (swGo s sz (List.range' i m stepN)).getLast? = some c ∧
         c.start + c.content.length = s.length) := by
  intro m
  induction m with
  | zero =>
    intro i hi hle
    rw [Nat.mul_zero] at hle
    omega
  | succ m ih =>
    intro i hi hle
    rw [List.range'_succ]
    have clen := swChunk_content_length s i sz (by omega)
    by_cases hc : s.length ≤ i + sz.toNat
    · -- the stop condition fires: this is the final chunk
      have hcond : (i : Int) + sz ≥ (s.length : Int) := by omega
      simp only [swGo, if_pos hcond]
      have hmin : min sz.toNat (s.length - i) = s.length - i := by omega
      refine ⟨⟨by simp, ?_⟩, ?_, ?_, ?_⟩
      · simp [List.range'_succ, List.range']
      · intro c hc'
        rcases List.mem_cons.mp hc' with rfl | h
        · exact ⟨le_refl _, by simp only [clen]; omega⟩
        · simp at h
      · intro k hik hkn
        refine ⟨_, List.mem_cons_self _ _, hik, ?_⟩
        simp only [clen]
        omega
      · exact ⟨_, List.getLast?_singleton _, by simp only [clen]; omega⟩
    · -- more document remains: the loop continues
      have hcond : ¬((i : Int) + sz ≥ (s.length : Int)) := by omega
      simp only [swGo, if_neg hcond]
      have hstepsz : stepN ≤ sz.toNat := by omega
      have hi' : i + stepN < s.length := by omega
      have hle' : s.length ≤ (i + stepN) + stepN * m := by
        rw [Nat.mul_succ] at hle
        generalize stepN * m = q at hle ⊢
        omega
      obtain ⟨⟨tne, tmap⟩, tbounds, tcov, tlast⟩ := ih (i + stepN) hi' hle'
      have hmin : min sz.toNat (s.length - i) = sz.toNat := by omega
      refine ⟨⟨by simp, ?_⟩, ?_, ?_, ?_⟩
      · simp only [List.map_cons, List.length_cons, List.range'_succ, tmap]
      · intro c hc'
        rcases List.mem_cons.mp hc' with rfl | h
        · exact ⟨le_refl _, by simp only [clen]; omega⟩
        · obtain ⟨hb1, hb2⟩ := tbounds c h
          exact ⟨by omega, hb2⟩
      · intro k hik hkn
        by_cases hk : k < i + sz.toNat
        · refine ⟨_, List.mem_cons_self _ _, hik, ?_⟩
          simp only [clen]
          omega
        · obtain ⟨c, hcm, hcov⟩ := tcov k (by omega) hkn
          exact ⟨c, List.mem_cons_of_mem _ hcm, hcov⟩
      · obtain ⟨c, hcl, hce⟩ := tlast
        refine ⟨c, ?_, hce⟩
        cases htail : swGo s sz (List.range' (i + stepN) m stepN) with
        | nil => exact absurd htail tne
        | cons t ts => rw [htail] at hcl; rw [List.getLast?_cons_cons, hcl]

/-- C6: for any string and any `size > 0`, `step > 0` with `step ≤ size`,
the chunks produced by `sliding_window` stay inside the string, cover every
offset of it, start at 0 advancing by `step`, and the final chunk ends
exactly at the string's length. -/
theorem sliding_window_coverage (seq : String) (size step : Int)
    (h1 : 0 < size) (h2 : 0 < step) (h3 : step ≤ size)
    (cs : List RawChunk) (hok : sliding_window seq size step = .ok cs) :
    (∀ c ∈ cs, c.start + c.content.length ≤ seq.length) ∧
    (∀ k, k < seq.length → ∃ c ∈ cs, c.start ≤ k ∧ k < c.start + c.content.length) ∧
    cs.map RawChunk.start = List.range' 0 cs.length step.toNat ∧
    (0 < seq.length → ∃ c, cs.getLast? = some c ∧
       c.start + c.content.length = seq.length) := by
  unfold sliding_window at hok
  rw [if_neg (by omega), if_neg (by omega)] at hok
  cases hok
  have hlen : seq.length = seq.data.length := rfl
  by_cases hn : seq.data.length = 0
  · have h0 : pyRangeLen seq.data.length step.toNat = 0 := by
      unfold pyRangeLen; rw [hn]; exact Nat.div_eq_of_lt (by omega)
    simp only [pyRange, h0, List.range', swGo]
    refine ⟨by simp, by omega, by simp [List.range'], by omega⟩
  · have hn1 : 1 ≤ seq.data.length := by omega
    obtain ⟨⟨hne, hmap⟩, hbounds, hcov, hlast⟩ :=
      swGo_master seq.data size step.toNat (by omega) (by omega) (by omega)
        (pyRangeLen seq.data.length step.toNat) 0 (by omega)
        (by simpa using le_step_mul_pyRangeLen seq.data.length step.toNat hn1 (by omega))
    simp only [pyRange]
    refine ⟨fun c hc => (hbounds c hc).2, fun k hk => hcov k (Nat.zero_le k) hk,
      hmap, fun _ => hlast⟩

/-- C6 (witness): the coverage facts instantiated on
`sliding_window "abcde" 3 2 = [⟨0,"abc"⟩, ⟨2,"cde"⟩]`. -/
theorem sliding_window_coverage_witness :
    (∀ c ∈ ([⟨0, "abc"⟩, ⟨2, "cde"⟩] : List RawChunk),
       c.start + c.content.length ≤ ("abcde" : String).length) ∧
    (∀ k, k < ("abcde" : String).length →
       ∃ c ∈ ([⟨0, "abc"⟩, ⟨2, "cde"⟩] : List RawChunk),
         c.start ≤ k ∧ k < c.start + c.content.length) ∧
    ([⟨0, "abc"⟩, ⟨2, "cde"⟩] : List RawChunk).map RawChunk.start
      = List.range' 0 ([⟨0, "abc"⟩, ⟨2, "cde"⟩] : List RawChunk).length (2 : Int).toNat ∧
    (0 < ("abcde" : String).length →
       ∃ c, ([⟨0, "abc"⟩, ⟨2, "cde"⟩] : List RawChunk).getLast? = some c ∧
         c.start + c.content.length = ("abcde" : String).length) :=
  sliding_window_coverage "abcde" 3 2 (by decide) (by decide) (by decide) _ (by decide)

/-- Every chunk the loop emits at an in-range start offset has some text. -/
lemma swGo_content_ne (s : List Char) (sz : Int) (hsz : 1 ≤ sz) :
    ∀ l, (∀ i ∈ l, i < s.length) → ∀ c ∈ swGo s sz l, c.content ≠ "" := by
  intro l
  induction l with
  | nil => intro _ c hc; simp [swGo] at hc
  | cons i rest ih =>
    intro hall c hc
    simp only [swGo] at hc
    rcases List.mem_cons.mp hc with rfl | hc'
    · have hi : i < s.length := hall i (List.mem_cons_self _ _)
      have hlen := swChunk_content_length s i sz (by omega)
      intro he
      have hdata : pySlice s i ((i : Int) + sz) = [] := by
        simpa using congrArg String.data he
      rw [hdata] at hlen
      simp at hlen
      omega
    · split at hc'
      · simp at hc'
      · exact ih (fun j hj => hall j (List.mem_cons_of_mem _ hj)) c hc'

/-- C10: with positive `size` and `step`, every chunk `sliding_window`
emits has non-empty content, and on the empty string it returns the empty
list (never an empty trailing chunk). -/
theorem sliding_window_nonempty_chunks (seq : String) (size step : Int)
    (h1 : 0 < size) (h2 : 0 < step) :
    (∀ cs, sliding_window seq size step = .ok cs → ∀ c ∈ cs, c.content ≠ "") ∧
    sliding_window "" size step = .ok [] := by
  constructor
  · intro cs hok
    unfold sliding_window at hok
    rw [if_neg (by omega), if_neg (by omega)] at hok
    cases hok
    exact swGo_content_ne seq.data size (by omega) _
      (pyRange_lt seq.data.length step.toNat (by omega))
  · unfold sliding_window
    rw [if_neg (by omega), if_neg (by omega)]
    have h0 : pyRangeLen (0 : Nat) step.toNat = 0 :=
      Nat.div_eq_of_lt (by omega)
    have hnil : ("" : String).data = [] := rfl
    simp [pyRange, hnil, h0, List.range', swGo]

/-- C10 (witness): the statement instantiated at `size = 1`, `step = 1`
and the string "ab". -/
theorem sliding_window_nonempty_chunks_witness :
    (∀ cs, sliding_window "ab" 1 1 = .ok cs → ∀ c ∈ cs, c.content ≠ "") ∧
    sliding_window "" 1 1 = .ok [] :=
  sliding_window_nonempty_chunks "ab" 1 1 (by decide) (by decide)

/-- If no filler phrase occurs anywhere, the substitution is the identity. -/
lemma subFillerGo_id : ∀ (l : List Char) (prev : Bool),
    noFillerScan prev l = true → subFillerGo prev l = l := by
  intro l
  induction l with
  | nil => intro prev _; simp [subFillerGo]
  | cons c rest ih =>
    intro prev h
    simp only [noFillerScan, Bool.and_eq_true, Bool.or_eq_true] at h
    obtain ⟨h1, h2⟩ := h
    have hrest := ih (isWordChar c) h2
    cases prev with
    | true => simp [subFillerGo, hrest]
    | false =>
      have hm : matchFiller (c :: rest) = none := by
        rcases h1 with h1 | h1
        · cases h1
        · exact Option.isNone_iff_eq_none.mp h1
      simp only [subFillerGo, Bool.false_eq_true, if_false]
      split
      · next len heq => rw [hm] at heq; cases heq
      · next heq => rw [hrest]

/-- C8: on a prompt containing no filler phrase (as a whole-word,
case-insensitive match) that is already whitespace-normal (collapsing
whitespace is the identity on it), `clean_prompt_for_search` returns the
prompt unchanged. -/
theorem clean_prompt_idempotent (prompt : String)
    (h1 : noFillerScan false prompt.data = true)
    (h2 : normalizeWs prompt.data = prompt.data) :
    clean_prompt_for_search prompt = prompt := by
  unfold clean_prompt_for_search
  rw [subFillerGo_id prompt.data false h1, h2]
  by_cases hd : prompt.data = []
  · rw [if_pos hd]
  · rw [if_neg hd]

/-- C8 (witness): the already-normal query "NHF refund" is returned
unchanged. -/
theorem clean_prompt_idempotent_witness :
    clean_prompt_for_search "NHF refund" = "NHF refund" :=
  clean_prompt_idempotent "NHF refund" (by decide) (by decide)

lemma textStep_eq : ∀ (st : FuseState) (r : SearchHit), textStep st r =
    if (r.filename, r.content) ∉ st.1 ∧ st.2.length < MAX_CHUNKS then
      ((r.filename, r.content) :: st.1, st.2 ++ [mkText r])
    else st :=
  fun _ _ => rfl

lemma vectorStep_eq : ∀ (st : FuseState) (r : SearchHit), vectorStep st r =
    if (r.filename, r.content) ∉ st.1 ∧ st.2.length < MAX_CHUNKS then
      ((r.filename, r.content) :: st.1, st.2 ++ [mkVector r])
    else st :=
  fun _ _ => rfl

lemma mkText_key : ∀ r : SearchHit, fusedKey (mkText r) = (r.filename, r.content) :=
  fun _ => rfl

lemma mkVector_key : ∀ r : SearchHit, fusedKey (mkVector r) = (r.filename, r.content) :=
  fun _ => rfl

lemma genFold_len_le
    (step : FuseState → SearchHit → FuseState) (mk : SearchHit → FusedResult)
    (hstep : ∀ st r, step st r =
      if (r.filename, r.content) ∉ st.1 ∧ st.2.length < MAX_CHUNKS then
        ((r.filename, r.content) :: st.1, st.2 ++ [mk r]) else st) :
    ∀ (l : List SearchHit) (st : FuseState), st.2.length ≤ MAX_CHUNKS →
      ((l.foldl step st).2).length ≤ MAX_CHUNKS := by
  intro l
  induction l with
  | nil => intro st h; simpa using h
  | cons r rest ih =>
    intro st h
    rw [List.foldl_cons]
    apply ih
    rw [hstep]
    split
    · next hc => simp only [List.length_append, List.length_singleton]; omega
    · exact h

lemma genStep_len_succ
    (step : FuseState → SearchHit → FuseState) (mk : SearchHit → FusedResult)
    (hstep : ∀ st r, step st r =
      if (r.filename, r.content) ∉ st.1 ∧ st.2.length < MAX_CHUNKS then
        ((r.filename, r.content) :: st.1, st.2 ++ [mk r]) else st)
    (st : FuseState) (r : SearchHit) :
    (step st r).2.length ≤ st.2.length + 1 := by
  rw [hstep]
  split
  · simp
  · omega

lemma genFold_seen_mono
    (step : FuseState → SearchHit → FuseState) (mk : SearchHit → FusedResult)
    (hstep : ∀ st r, step st r =
      if (r.filename, r.content) ∉ st.1 ∧ st.2.length < MAX_CHUNKS then
        ((r.filename, r.content) :: st.1, st.2 ++ [mk r]) else st) :
    ∀ (l : List SearchHit) (st : FuseState) (k : String × String),
      k ∈ st.1 → k ∈ (l.foldl step st).1 := by
  intro l
  induction l with
  | nil => intro st k hk; simpa using hk
  | cons r rest ih =>
    intro st k hk
    rw [List.foldl_cons]
    apply ih
    rw [hstep]
    split
    · exact List.mem_cons_of_mem _ hk
    · exact hk

lemma genFold_append
    (step : FuseState → SearchHit → FuseState) (mk : SearchHit → FusedResult)
    (hstep : ∀ st r, step st r =
      if (r.filename, r.content) ∉ st.1 ∧ st.2.length < MAX_CHUNKS then
        ((r.filename, r.content) :: st.1, st.2 ++ [mk r]) else st)
    (hkey : ∀ r, fusedKey (mk r) = (r.filename, r.content)) :
    ∀ (l : List SearchHit) (st : FuseState),
      ∃ ex, (l.foldl step st).2 = st.2 ++ ex ∧
        ∀ e ∈ ex, (∃ r ∈ l, e = mk r) ∧ fusedKey e ∉ st.1 := by
  intro l
  induction l with
  | nil => intro st; exact ⟨[], by simp, by simp⟩
  | cons r rest ih =>
    intro st
    rw [List.foldl_cons]
    by_cases hc : (r.filename, r.content) ∉ st.1 ∧ st.2.length < MAX_CHUNKS
    · have hst : step st r =
          ((r.filename, r.content) :: st.1, st.2 ++ [mk r]) := by
        rw [hstep, if_pos hc]
      rw [hst]
      obtain ⟨ex, hex, hall⟩ :=
        ih ((r.filename, r.content) :: st.1, st.2 ++ [mk r])
      refine ⟨mk r :: ex, ?_, ?_⟩
      · rw [hex]; simp
      · intro e he
        rcases List.mem_cons.mp he with rfl | he'
        · exact ⟨⟨r, List.mem_cons_self _ _, rfl⟩, by rw [hkey]; exact hc.1⟩
        · obtain ⟨⟨r', hr', he2⟩, hk⟩ := hall e he'
          exact ⟨⟨r', List.mem_cons_of_mem _ hr', he2⟩,
            fun hmem => hk (List.mem_cons_of_mem _ hmem)⟩
    · have hst : step st r = st := by rw [hstep, if_neg hc]
      rw [hst]
      obtain ⟨ex, hex, hall⟩ := ih st
      refine ⟨ex, hex, fun e he => ?_⟩
      obtain ⟨⟨r', hr', he2⟩, hk⟩ := hall e he
      exact ⟨⟨r', List.mem_cons_of_mem _ hr', he2⟩, hk⟩

lemma genFold_inv
    (step : FuseState → SearchHit → FuseState) (mk : SearchHit → FusedResult)
    (hstep : ∀ st r, step st r =
      if (r.filename, r.content) ∉ st.1 ∧ st.2.length < MAX_CHUNKS then
        ((r.filename, r.content) :: st.1, st.2 ++ [mk r]) else st)
    (hkey : ∀ r, fusedKey (mk r) = (r.filename, r.content)) :
    ∀ (l : List SearchHit) (st : FuseState), SeenInv st →
      SeenInv (l.foldl step st) := by
  intro l
  induction l with
  | nil => intro st h; simpa using h
  | cons r rest ih =>
    intro st h
    rw [List.foldl_cons]
    apply ih
    obtain ⟨hiff, hnd⟩ := h
    by_cases hc : (r.filename, r.content) ∉ st.1 ∧ st.2.length < MAX_CHUNKS
    · have hst : step st r =
          ((r.filename, r.content) :: st.1, st.2 ++ [mk r]) := by
        rw [hstep, if_pos hc]
      rw [hst]
      constructor
      · intro k
        constructor
        · intro hk
          rcases List.mem_cons.mp hk with rfl | hk'
          · exact ⟨mk r, by simp, hkey r⟩
          · obtain ⟨e, he, hek⟩ := (hiff k).mp hk'
            exact ⟨e, by simp [he], hek⟩
        · rintro ⟨e, he, hek⟩
          rcases List.mem_append.mp he with he' | he'
          · exact List.mem_cons_of_mem _ ((hiff k).mpr ⟨e, he', hek⟩)
          · rw [List.mem_singleton] at he'
            subst he'
            rw [hkey r] at hek
            rw [← hek]
            exact List.mem_cons_self _ _
      · rw [List.map_append]
        refine List.nodup_append.mpr ⟨hnd, by simp, ?_⟩
        intro a ha hb
        simp only [List.map_cons, List.map_nil, List.mem_singleton] at hb
        subst hb
        rw [hkey r] at ha
        rw [List.mem_map] at ha
        obtain ⟨e, he, hek⟩ := ha
        exact hc.1 ((hiff _).mpr ⟨e, he, hek⟩)
    · have hst : step st r = st := by rw [hstep, if_neg hc]
      rw [hst]
      exact ⟨hiff, hnd⟩

lemma genFold_all_seen
    (step : FuseState → SearchHit → FuseState) (mk : SearchHit → FusedResult)
    (hstep : ∀ st r, step st r =
      if (r.filename, r.content) ∉ st.1 ∧ st.2.length < MAX_CHUNKS then
        ((r.filename, r.content) :: st.1, st.2 ++ [mk r]) else st) :
    ∀ (l : List SearchHit) (st : FuseState),
      st.2.length + l.length ≤ MAX_CHUNKS →
      ∀ r ∈ l, (r.filename, r.content) ∈ (l.foldl step st).1 := by
  intro l
  induction l with
  | nil => intro st _ r hr; simp at hr
  | cons a rest ih =>
    intro st hcap r hr
    rw [List.foldl_cons]
    rcases List.mem_cons.mp hr with rfl | hr'
    · apply genFold_seen_mono step mk hstep rest (step st r)
      rw [hstep]
      split
      · exact List.mem_cons_self _ _
      · next hc =>
        have hB : st.2.length < MAX_CHUNKS := by
          simp only [List.length_cons] at hcap; omega
        rcases not_and_or.mp hc with hA | hB'
        · exact not_not.mp hA
        · exact absurd hB hB'
    · refine ih (step st a) ?_ r hr'
      have hs := genStep_len_succ step mk hstep st a
      simp only [List.length_cons] at hcap
      omega

lemma filter_key_singleton :
    ∀ (l : List FusedResult) (k : String × String) (e : FusedResult),
      (l.map fusedKey).Nodup → e ∈ l → fusedKey e = k →
      l.filter (fun x => decide (fusedKey x = k)) = [e] := by
  intro l
  induction l with
  | nil => intro k e _ he; simp at he
  | cons a rest ih =>
    intro k e hnd he hek
    rw [List.map_cons, List.nodup_cons] at hnd
    obtain ⟨hna, hnd'⟩ := hnd
    rcases List.mem_cons.mp he with rfl | he'
    · rw [List.filter_cons_of_pos (by simp [hek])]
      have hrest : rest.filter (fun x => decide (fusedKey x = k)) = [] := by
        rw [List.filter_eq_nil_iff]
        intro x hx
        simp only [decide_eq_true_eq]
        intro hxk
        exact hna (hek ▸ hxk ▸ List.mem_map_of_mem fusedKey hx)
      rw [hrest]
    · have hak : fusedKey a ≠ k := by
        intro hak
        apply hna
        rw [hak]
        exact hek ▸ List.mem_map_of_mem fusedKey he'
      rw [List.filter_cons_of_neg (by simp [hak])]
      exact ih k e hnd' he' hek

/-- C1: when some (identifier, content) pair occurs in both result pools,
the fused list contains exactly one entry under that key — the
`filename`/`content`-shaped copy appended from the lexical pool — and,
more generally, every lexical candidate survives as its own entry, so two
candidates are merged only when both identifier and exact content agree.
The lexical pool is capped by its `num_results=10` request, which equals
`MAX_CHUNKS`. -/
theorem hybrid_search_dedup_lexical_wins {V : Type}
    (textSearch : String → Nat → List SearchHit) (encode : String → V)
    (vectorSearch : V → Nat → List SearchHit) (query f c : String)
    (hcap : (textSearch (clean_prompt_for_search query) 10).length ≤ MAX_CHUNKS)
    (ht : ∃ r ∈ textSearch (clean_prompt_for_search query) 10,
        r.filename = f ∧ r.content = c)
    (hv : ∃ r ∈ vectorSearch (encode (clean_prompt_for_search query)) 8,
        r.filename = f ∧ r.content = c) :
    (hybrid_search textSearch encode vectorSearch query).filter
        (fun e => decide (fusedKey e = (f, c))) = [FusedResult.text f c] ∧
    ∀ r ∈ textSearch (clean_prompt_for_search query) 10,
      FusedResult.text r.filename r.content ∈
        hybrid_search textSearch encode vectorSearch query := by
  clear hv
  have hunfold : hybrid_search textSearch encode vectorSearch query =
      hybrid_fuse (textSearch (clean_prompt_for_search query) 10)
        (vectorSearch (encode (clean_prompt_for_search query)) 8) := rfl
  rw [hunfold]
  set tr := textSearch (clean_prompt_for_search query) 10 with htr
  set vr := vectorSearch (encode (clean_prompt_for_search query)) 8 with hvr
  obtain ⟨ex1, hex1, hall1⟩ := genFold_append textStep mkText textStep_eq mkText_key tr ([], [])
  obtain ⟨ex2, hex2, hall2⟩ :=
    genFold_append vectorStep mkVector vectorStep_eq mkVector_key vr (tr.foldl textStep ([], []))
  have hex1' : (tr.foldl textStep (([], []) : FuseState)).2 = ex1 := by simpa using hex1
  have hinv1 : SeenInv (tr.foldl textStep ([], [])) :=
    genFold_inv textStep mkText textStep_eq mkText_key tr ([], [])
      ⟨fun k => by simp, by simp⟩
  have hinv2 : SeenInv (vr.foldl vectorStep (tr.foldl textStep ([], []))) :=
    genFold_inv vectorStep mkVector vectorStep_eq mkVector_key vr _ hinv1
  -- every lexical key makes it into seen_contents, hence into the text entries
  have htext_mem : ∀ r ∈ tr, FusedResult.text r.filename r.content ∈
      (tr.foldl textStep (([], []) : FuseState)).2 := by
    intro r hr
    have hseen : (r.filename, r.content) ∈ (tr.foldl textStep (([], []) : FuseState)).1 :=
      genFold_all_seen textStep mkText textStep_eq tr ([], []) (by simpa using hcap) r hr
    obtain ⟨e, he, hek⟩ := (hinv1.1 _).mp hseen
    have he' : e ∈ ex1 := hex1' ▸ he
    obtain ⟨⟨r', _, rfl⟩, -⟩ := hall1 e he'
    have h12 : r'.filename = r.filename ∧ r'.content = r.content := by
      have hk := hek
      rw [mkText_key] at hk
      rw [Prod.mk.injEq] at hk
      exact hk
    obtain ⟨h1, h2⟩ := h12
    rw [show FusedResult.text r.filename r.content = mkText r' by
      simp [mkText, h1, h2]]
    exact he
  have hcomb : combinedResults tr vr =
      (tr.foldl textStep (([], []) : FuseState)).2 ++ ex2 := hex2
  obtain ⟨rt, hrt, hrtf, hrtc⟩ := ht
  have hmem1 : FusedResult.text f c ∈ (tr.foldl textStep (([], []) : FuseState)).2 := by
    have := htext_mem rt hrt
    rwa [hrtf, hrtc] at this
  have hmem2 : FusedResult.text f c ∈ combinedResults tr vr := by
    rw [hcomb]; exact List.mem_append_left _ hmem1
  have hne : ¬(combinedResults tr vr).isEmpty = true := by
    rw [List.isEmpty_iff]
    intro h0
    rw [h0] at hmem2
    exact List.not_mem_nil _ hmem2
  have hfuse : hybrid_fuse tr vr = combinedResults tr vr := by
    unfold hybrid_fuse
    rw [if_neg hne]
  rw [hfuse]
  constructor
  · exact filter_key_singleton (combinedResults tr vr) (f, c) (FusedResult.text f c)
      hinv2.2 hmem2 rfl
  · intro r hr
    rw [hcomb]
    exact List.mem_append_left _ (htext_mem r hr)

/-- C1 (witness): both pools offer ("a.md", "X"); the fused list keeps
exactly the lexical copy. -/
theorem hybrid_search_dedup_lexical_wins_witness :
    (hybrid_search (fun _ _ => [⟨"a.md", "X", none⟩]) (fun _ => ())
        (fun _ _ => [⟨"a.md", "X", some "http"⟩]) "q").filter
        (fun e => decide (fusedKey e = ("a.md", "X"))) = [FusedResult.text "a.md" "X"] ∧
    ∀ r ∈ ([⟨"a.md", "X", none⟩] : List SearchHit),
      FusedResult.text r.filename r.content ∈
        hybrid_search (fun _ _ => [⟨"a.md", "X", none⟩]) (fun _ => ())
          (fun _ _ => [⟨"a.md", "X", some "http"⟩]) "q" :=
  hybrid_search_dedup_lexical_wins (fun _ _ => [⟨"a.md", "X", none⟩]) (fun _ => ())
    (fun _ _ => [⟨"a.md", "X", some "http"⟩]) "q" "a.md" "X"
    (by decide)
    ⟨⟨"a.md", "X", none⟩, List.mem_singleton.mpr rfl, rfl, rfl⟩
    ⟨⟨"a.md", "X", some "http"⟩, List.mem_singleton.mpr rfl, rfl, rfl⟩

/-- C2: the fused output of `hybrid_search` never exceeds `MAX_CHUNKS`
entries; `combined_results` stays within the cap at every point of both
fusion loops (any split of either pool); and once the cap is reached
neither loop appends anything. -/
theorem hybrid_search_cap_enforced {V : Type}
    (textSearch : String → Nat → List SearchHit) (encode : String → V)
    (vectorSearch : V → Nat → List SearchHit) (query : String) :
    (hybrid_search textSearch encode vectorSearch query).length ≤ MAX_CHUNKS ∧
    (∀ l₁ l₂, textSearch (clean_prompt_for_search query) 10 = l₁ ++ l₂ →
      ((l₁.foldl textStep (([], []) : FuseState)).2).length ≤ MAX_CHUNKS) ∧
    (∀ m₁ m₂, vectorSearch (encode (clean_prompt_for_search query)) 8 = m₁ ++ m₂ →
      ((m₁.foldl vectorStep
        ((textSearch (clean_prompt_for_search query) 10).foldl textStep
          (([], []) : FuseState))).2).length ≤ MAX_CHUNKS) ∧
    (∀ (st : FuseState) (r : SearchHit), MAX_CHUNKS ≤ st.2.length →
      textStep st r = st ∧ vectorStep st r = st) := by
  have hzero : ((([], []) : FuseState).2).length ≤ MAX_CHUNKS := by
    simp [MAX_CHUNKS]
  refine ⟨?_, ?_, ?_, ?_⟩
  · have h1 := genFold_len_le textStep mkText textStep_eq
      (textSearch (clean_prompt_for_search query) 10) ([], []) hzero
    have h2 := genFold_len_le vectorStep mkVector vectorStep_eq
      (vectorSearch (encode (clean_prompt_for_search query)) 8) _ h1
    show (hybrid_fuse _ _).length ≤ MAX_CHUNKS
    unfold hybrid_fuse
    split
    · simp [MAX_CHUNKS, noResults]
    · exact h2
  · intro l₁ l₂ _
    exact genFold_len_le textStep mkText textStep_eq l₁ ([], []) hzero
  · intro m₁ m₂ _
    exact genFold_len_le vectorStep mkVector vectorStep_eq m₁ _
      (genFold_len_le textStep mkText textStep_eq _ ([], []) hzero)
  · intro st r h
    constructor
    · rw [textStep_eq]
      exact if_neg fun hc => absurd hc.2 (by omega)
    · rw [vectorStep_eq]
      exact if_neg fun hc => absurd hc.2 (by omega)

/-- C2 (witness): the cap facts instantiated on concrete pools and on a
concrete full state. -/
theorem hybrid_search_cap_enforced_witness :
    (hybrid_search (fun _ _ => [⟨"a.md", "X", none⟩]) (fun _ => ())
        (fun _ _ => ([] : List SearchHit)) "q").length ≤ MAX_CHUNKS ∧
    ((([⟨"a.md", "X", none⟩] : List SearchHit).foldl textStep
        (([], []) : FuseState)).2).length ≤ MAX_CHUNKS ∧
    ((([] : List SearchHit).foldl vectorStep
        (([⟨"a.md", "X", none⟩] : List SearchHit).foldl textStep
          (([], []) : FuseState))).2).length ≤ MAX_CHUNKS ∧
    (textStep ([], List.replicate 10 noResults) ⟨"a.md", "X", none⟩
        = ([], List.replicate 10 noResults) ∧
      vectorStep ([], List.replicate 10 noResults) ⟨"a.md", "X", none⟩
        = ([], List.replicate 10 noResults)) :=
  ⟨(hybrid_search_cap_enforced (fun _ _ => [⟨"a.md", "X", none⟩]) (fun _ => ())
      (fun _ _ => ([] : List SearchHit)) "q").1,
   (hybrid_search_cap_enforced (fun _ _ => [⟨"a.md", "X", none⟩]) (fun _ => ())
      (fun _ _ => ([] : List SearchHit)) "q").2.1 [⟨"a.md", "X", none⟩] [] (by simp),
   (hybrid_search_cap_enforced (fun _ _ => [⟨"a.md", "X", none⟩]) (fun _ => ())
      (fun _ _ => ([] : List SearchHit)) "q").2.2.1 [] [] (by simp),
   (hybrid_search_cap_enforced (fun _ _ => [⟨"a.md", "X", none⟩]) (fun _ => ())
      (fun _ _ => ([] : List SearchHit)) "q").2.2.2
      ([], List.replicate 10 noResults) ⟨"a.md", "X", none⟩
      (by simp [MAX_CHUNKS])⟩

/-- C3: when both pools contribute zero surviving candidates (i.e.
`combined_results` stays empty), `hybrid_search` returns exactly the
single no-results sentinel record; and it never returns an empty list. -/
theorem hybrid_search_empty_fallback {V : Type}
    (textSearch : String → Nat → List SearchHit) (encode : String → V)
    (vectorSearch : V → Nat → List SearchHit) (query : String) :
    (combinedResults (textSearch (clean_prompt_for_search query) 10)
        (vectorSearch (encode (clean_prompt_for_search query)) 8) = [] →
      hybrid_search textSearch encode vectorSearch query = [noResults]) ∧
    hybrid_search textSearch encode vectorSearch query ≠ [] := by
  constructor
  · intro h
    show hybrid_fuse _ _ = _
    unfold hybrid_fuse
    rw [h]
    simp
  · show hybrid_fuse _ _ ≠ []
    unfold hybrid_fuse
    split
    · simp
    · next hcond => exact fun h0 => hcond (by rw [h0]; rfl)

/-- C3 (witness): with both pools empty the sentinel is returned and the
result is non-empty. -/
theorem hybrid_search_empty_fallback_witness :
    hybrid_search (fun _ _ => ([] : List SearchHit)) (fun _ => ())
        (fun _ _ => ([] : List SearchHit)) "q" = [noResults] ∧
    hybrid_search (fun _ _ => ([] : List SearchHit)) (fun _ => ())
        (fun _ _ => ([] : List SearchHit)) "q" ≠ [] :=
  ⟨(hybrid_search_empty_fallback (fun _ _ => ([] : List SearchHit)) (fun _ => ())
      (fun _ _ => ([] : List SearchHit)) "q").1 rfl,
   (hybrid_search_empty_fallback (fun _ _ => ([] : List SearchHit)) (fun _ => ())
      (fun _ _ => ([] : List SearchHit)) "q").2⟩

/-- C4: not every non-sentinel fused entry exposes a display name and a
citation URL: an entry surviving from the lexical pool is repackaged as a
`filename`/`content` dict with no URL field at all (only vector-pool
entries get `display_name`/`link_url`). -/
theorem hybrid_search_output_shape_cex :
    hybrid_search (fun _ _ => [⟨"a.md", "X", some "http"⟩]) (fun _ => ())
        (fun _ _ => ([] : List SearchHit)) "q" = [FusedResult.text "a.md" "X"] ∧
    ∀ d u ct, FusedResult.text "a.md" "X" ≠ FusedResult.vector d u ct :=
  ⟨rfl, fun _ _ _ h => FusedResult.noConfusion h⟩

/-- C4 (amended): every fused entry is either the sentinel, a
`filename`/`content` record coming from a lexical hit (no URL field), or a
`display_name`/`link_url`/`content` record coming from a semantic hit, in
which case `display_name` is the hit's filename and `link_url` is its
`url` when present and its filename otherwise. -/
theorem hybrid_search_output_shape_amended {V : Type}
    (textSearch : String → Nat → List SearchHit) (encode : String → V)
    (vectorSearch : V → Nat → List SearchHit) (query : String)
    (e : FusedResult)
    (he : e ∈ hybrid_search textSearch encode vectorSearch query) :
    (∃ r ∈ textSearch (clean_prompt_for_search query) 10,
        e = FusedResult.text r.filename r.content) ∨
    (∃ r ∈ vectorSearch (encode (clean_prompt_for_search query)) 8,
        e = FusedResult.vector r.filename (r.url.getD r.filename) r.content) ∨
    e = noResults := by
  set tr := textSearch (clean_prompt_for_search query) 10 with htr
  set vr := vectorSearch (encode (clean_prompt_for_search query)) 8 with hvr
  have hunfold : hybrid_search textSearch encode vectorSearch query =
      hybrid_fuse tr vr := rfl
  rw [hunfold] at he
  unfold hybrid_fuse at he
  split at he
  · rw [List.mem_singleton] at he
    exact Or.inr (Or.inr he)
  · obtain ⟨ex1, hex1, hall1⟩ :=
      genFold_append textStep mkText textStep_eq mkText_key tr ([], [])
    obtain ⟨ex2, hex2, hall2⟩ :=
      genFold_append vectorStep mkVector vectorStep_eq mkVector_key vr
        (tr.foldl textStep ([], []))
    have hex1' : (tr.foldl textStep (([], []) : FuseState)).2 = ex1 := by
      simpa using hex1
    have hcomb : combinedResults tr vr =
        (tr.foldl textStep (([], []) : FuseState)).2 ++ ex2 := hex2
    rw [hcomb] at he
    rcases List.mem_append.mp he with he' | he'
    · rw [hex1'] at he'
      obtain ⟨⟨r, hr, rfl⟩, -⟩ := hall1 e he'
      exact Or.inl ⟨r, hr, rfl⟩
    · obtain ⟨⟨r, hr, rfl⟩, -⟩ := hall2 e he'
      exact Or.inr (Or.inl ⟨r, hr, rfl⟩)

/-- C4 (amended, witness): the shape characterization applied to the
lexical-only concrete search. -/
theorem hybrid_search_output_shape_amended_witness :
    (∃ r ∈ ([⟨"a.md", "X", some "http"⟩] : List SearchHit),
        FusedResult.text "a.md" "X" = FusedResult.text r.filename r.content) ∨
    (∃ r ∈ ([] : List SearchHit),
        FusedResult.text "a.md" "X"
          = FusedResult.vector r.filename (r.url.getD r.filename) r.content) ∨
    FusedResult.text "a.md" "X" = noResults :=
  hybrid_search_output_shape_amended (fun _ _ => [⟨"a.md", "X", some "http"⟩])
    (fun _ => ()) (fun _ _ => ([] : List SearchHit)) "q"
    (FusedResult.text "a.md" "X") (by decide)
